import Mathlib

/-!
Verification development for the pricing / margin utility library
(`lib/econ.ts` and the Money/pricing module).

Shallow embedding conventions:
* JavaScript numbers holding integer cent / bps values are modelled as `ℤ`;
  intermediate real-valued expressions are modelled exactly in `ℚ`
  (the mirror functions suffixed `R`).
* `Math.round x` is `⌊x + 1/2⌋` (JS rounds halves toward +∞),
  `Math.floor` is `⌊·⌋`, `Math.ceil` is `⌈·⌉`.
* A function that can `throw` returns an `Option`, `none` being the thrown state.
* `minPriceForFloorCents` returns `Number.POSITIVE_INFINITY` when the
  denominator is non-positive; the infinite sentinel is modelled as `none`.
-/

/-- `Math.round (n / d)` for integers with `0 < d`:
JS rounds half up, i.e. `⌊n/d + 1/2⌋ = ⌊(2n+d)/(2d)⌋`; `Int` `/` is
euclidean division, which is floor division for a positive divisor. -/
def jsRound (n d : ℤ) : ℤ := (2 * n + d) / (2 * d)

/-- `Math.ceil (n / d)` for integers with `0 < d`. -/
def jsCeilDiv (n d : ℤ) : ℤ := -((-n) / d)

/-- Insertion-order deduplication, as performed by `Array.from(new Set(xs))`
(the first occurrence of each value is kept). -/
def jsDedup {α : Type} [DecidableEq α] : List α → List α
  | [] => []
  | a :: l => a :: jsDedup (l.filter (fun x => x ≠ a))
termination_by l => l.length
decreasing_by
  exact Nat.lt_succ_of_le (List.length_filter_le _ _)

/- ### Data tables of lib/econ.ts -/

inductive Platform : Type
  | etsy | ebay | gumroad | shopify | tiktok_shop | stripe_links | other
deriving DecidableEq

inductive ProductKind : Type
  | physical | digital | service | flip
deriving DecidableEq

/-- Default floors (bps) per product kind. -/
def DEFAULT_FLOORS_BPS : ProductKind → ℤ
  | ProductKind.physical => 3000
  | ProductKind.digital => 7000
  | ProductKind.service => 2500
  | ProductKind.flip => 2500

/-- Default buffer for refunds/defects (bps of price). -/
def DEFAULT_BUFFER_BPS : ℤ := 300

structure FeePreset where
  pctBps : ℤ
  fixedCents : ℤ
  label : String
deriving DecidableEq

/-- Platform fee presets (bps of price) + fixed cents. -/
def PLATFORM_FEES : Platform → FeePreset
  | Platform.etsy => { pctBps := 650 + 325, fixedCents := 0, label := "Etsy + payment (~9.75%)" }
  | Platform.ebay => { pctBps := 1300, fixedCents := 0, label := "eBay final value (avg)" }
  | Platform.gumroad => { pctBps := 1000, fixedCents := 30, label := "Gumroad 10% + $0.30" }
  | Platform.shopify => { pctBps := 290, fixedCents := 30, label := "Stripe 2.9% + $0.30" }
  | Platform.tiktok_shop => { pctBps := 600, fixedCents := 0, label := "TikTok Shop (~6%)" }
  | Platform.stripe_links => { pctBps := 290, fixedCents := 30, label := "Stripe 2.9% + $0.30" }
  | Platform.other => { pctBps := 300, fixedCents := 30, label := "Generic PSP 3% + $0.30" }

inductive Country : Type
  | US | AU | UK | EU | Other
deriving DecidableEq

/-- `Omit<EconInputs, 'priceCents'>`: the price-less inputs. Optional fields
of the TypeScript interface are `Option`s (absent = `none`). -/
structure EconBase where
  cogsCents : ℤ
  shippingCents : ℤ
  packagingCents : Option ℤ := none
  platform : Platform
  kind : ProductKind
  overridePctBps : Option ℤ := none
  overrideFixedCents : Option ℤ := none
  bufferBps : Option ℤ := none
  floorBps : Option ℤ := none
  country : Option Country := none
deriving DecidableEq

structure EconInputs where
  priceCents : ℤ
  cogsCents : ℤ
  shippingCents : ℤ
  packagingCents : Option ℤ := none
  platform : Platform
  kind : ProductKind
  overridePctBps : Option ℤ := none
  overrideFixedCents : Option ℤ := none
  bufferBps : Option ℤ := none
  floorBps : Option ℤ := none
  country : Option Country := none
deriving DecidableEq

/-- The object spread `{ ...baseInput, priceCents }` used by the ladder builder. -/
def withPrice (b : EconBase) (p : ℤ) : EconInputs :=
  { priceCents := p, cogsCents := b.cogsCents, shippingCents := b.shippingCents,
    packagingCents := b.packagingCents, platform := b.platform, kind := b.kind,
    overridePctBps := b.overridePctBps, overrideFixedCents := b.overrideFixedCents,
    bufferBps := b.bufferBps, floorBps := b.floorBps, country := b.country }

/-- Forget the price field. -/
def baseOf (i : EconInputs) : EconBase :=
  { cogsCents := i.cogsCents, shippingCents := i.shippingCents,
    packagingCents := i.packagingCents, platform := i.platform, kind := i.kind,
    overridePctBps := i.overridePctBps, overrideFixedCents := i.overrideFixedCents,
    bufferBps := i.bufferBps, floorBps := i.floorBps, country := i.country }

structure FeeBreakdown where
  feeLabel : String
  platformPctBps : ℤ
  fixedFeeCents : ℤ
deriving DecidableEq

structure EconResult where
  priceCents : ℤ
  feesCents : ℤ
  bufferCents : ℤ
  cogsCents : ℤ
  shippingCents : ℤ
  packagingCents : ℤ
  profitCents : ℤ
  marginBps : ℤ
  pass : Bool
  floorBps : ℤ
  breakdown : FeeBreakdown
deriving DecidableEq

/-- `mulBps`: `Math.round((amountCents * rateBps) / 10000)`. -/
def mulBps (amountCents rateBps : ℤ) : ℤ := jsRound (amountCents * rateBps) 10000

structure FeesOutcome where
  feesCents : ℤ
  pctBps : ℤ
  fixedCents : ℤ
  label : String
deriving DecidableEq

/-- `computeFeesCents` (the `?? PLATFORM_FEES.other` fallback never fires since
the platform table is total). -/
def computeFeesCents (priceCents : ℤ) (platform : Platform)
    (overridePctBps overrideFixedCents : Option ℤ) : FeesOutcome :=
  let preset := PLATFORM_FEES platform
  let pctBps := overridePctBps.getD preset.pctBps
  let fixedCents := overrideFixedCents.getD preset.fixedCents
  { feesCents := mulBps priceCents pctBps + fixedCents,
    pctBps := pctBps, fixedCents := fixedCents, label := preset.label }

/-- `evaluateEcon`: throws (`none`) when `priceCents <= 0`. -/
def evaluateEcon (input : EconInputs) : Option EconResult :=
  let packagingCents := input.packagingCents.getD 0
  let bufferBps := input.bufferBps.getD DEFAULT_BUFFER_BPS
  let floorBps := input.floorBps.getD (DEFAULT_FLOORS_BPS input.kind)
  if input.priceCents ≤ 0 then none
  else
    let f := computeFeesCents input.priceCents input.platform
      input.overridePctBps input.overrideFixedCents
    let bufferCents := mulBps input.priceCents bufferBps
    let profitCents := input.priceCents -
      (input.cogsCents + input.shippingCents + packagingCents + f.feesCents + bufferCents)
    let marginBps := jsRound (profitCents * 10000) input.priceCents
    some { priceCents := input.priceCents, feesCents := f.feesCents,
           bufferCents := bufferCents, cogsCents := input.cogsCents,
           shippingCents := input.shippingCents, packagingCents := packagingCents,
           profitCents := profitCents, marginBps := marginBps,
           pass := decide (floorBps ≤ marginBps), floorBps := floorBps,
           breakdown := { feeLabel := f.label, platformPctBps := f.pctBps,
                          fixedFeeCents := f.fixedCents } }

/-- `minPriceForFloorCents`; `none` models the `Number.POSITIVE_INFINITY` sentinel. -/
def minPriceForFloorCents (b : EconBase) : Option ℤ :=
  let packagingCents := b.packagingCents.getD 0
  let bufferBps := b.bufferBps.getD DEFAULT_BUFFER_BPS
  let floorBps := b.floorBps.getD (DEFAULT_FLOORS_BPS b.kind)
  let preset := PLATFORM_FEES b.platform
  let pctBps := b.overridePctBps.getD preset.pctBps
  let fixedCents := b.overrideFixedCents.getD preset.fixedCents
  let denomBps := 10000 - pctBps - bufferBps - floorBps
  if denomBps ≤ 0 then none
  else
    let rhsCents := b.cogsCents + b.shippingCents + packagingCents + fixedCents
    some (jsCeilDiv (rhsCents * 10000) denomBps)

/-- `maxCogsForFloorCents`: the `/ 1` and the `Math.floor` of the source are
no-ops on the integer value `mulBps` returns (made explicit in the `ℚ` mirror
`maxCogsForFloorCentsR` below). -/
def maxCogsForFloorCents (input : EconInputs) : ℤ :=
  let packagingCents := input.packagingCents.getD 0
  let bufferBps := input.bufferBps.getD DEFAULT_BUFFER_BPS
  let floorBps := input.floorBps.getD (DEFAULT_FLOORS_BPS input.kind)
  let preset := PLATFORM_FEES input.platform
  let pctBps := input.overridePctBps.getD preset.pctBps
  let fixedCents := input.overrideFixedCents.getD preset.fixedCents
  mulBps input.priceCents (10000 - pctBps - bufferBps - floorBps) -
    (input.shippingCents + packagingCents + fixedCents)

inductive Charm : Type
  | c99 | c95 | c90 | cnone
deriving DecidableEq

/-- The `endings` record of `roundToCharm`. -/
def charmEnding : Charm → ℤ
  | Charm.c99 => 99
  | Charm.c95 => 95
  | Charm.c90 => 90
  | Charm.cnone => 0

/-- The local `ensure` closure: `minCents && n < minCents ? minCents : n`
(an absent or zero `minCents` is falsy). -/
def ensureMin (minCents : Option ℤ) (n : ℤ) : ℤ :=
  match minCents with
  | none => n
  | some m => if m ≠ 0 ∧ n < m then m else n

/-- `roundToCharm`. -/
def roundToCharm (priceCents : ℤ) (charm : Charm) (minCents : Option ℤ) : ℤ :=
  if charm = Charm.cnone then ensureMin minCents priceCents
  else
    let dollars := priceCents / 100
    let target := dollars * 100 + charmEnding charm
    if priceCents ≤ target then ensureMin minCents target
    else ensureMin minCents ((dollars + 1) * 100 + charmEnding charm)

/-- The indexed `steps.map((m, i) => ...)` body of `buildPriceLadderCents`.
Step multipliers are JS numbers, modelled as exact rationals. -/
def ladderAux (b : EconBase) (p0 : ℤ) (charm : Charm) : ℕ → List ℚ → Option (List ℤ)
  | _, [] => some []
  | i, m :: rest =>
    let raw : ℤ := ⌈(p0 : ℚ) * m⌉
    let charmed := roundToCharm raw charm (some p0)
    match evaluateEcon (withPrice b charmed) with
    | none => none
    | some evalRes =>
      let rung := if evalRes.pass = false ∧ i = 0
        then roundToCharm (p0 + 1) charm (some p0) else charmed
      match ladderAux b p0 charm (i + 1) rest with
      | none => none
      | some rest' => some (rung :: rest')

/-- `buildPriceLadderCents`, restricted to a finite break-even price (the
branch in which every value stays an integer). When `minPriceForFloorCents`
is the infinite sentinel the source does NOT stop: it carries
`p0 = Infinity` through the ladder and returns `[Infinity]`; that branch is
modelled faithfully by `buildPriceLadderCentsJS` below, which is proved to
agree with this function whenever the break-even price is finite. -/
def buildPriceLadderCents (b : EconBase) (steps : List ℚ) (charm : Charm) :
    Option (List ℤ) :=
  match minPriceForFloorCents b with
  | none => none
  | some p0 =>
    match ladderAux b p0 charm 0 steps with
    | none => none
    | some ladder => some (jsDedup ladder)

/- ### Effective (post-default) parameters, used to state the claims. -/

def effPctB (b : EconBase) : ℤ := b.overridePctBps.getD (PLATFORM_FEES b.platform).pctBps

def effFixedB (b : EconBase) : ℤ :=
  b.overrideFixedCents.getD (PLATFORM_FEES b.platform).fixedCents

def effBufferB (b : EconBase) : ℤ := b.bufferBps.getD DEFAULT_BUFFER_BPS

def effFloorB (b : EconBase) : ℤ := b.floorBps.getD (DEFAULT_FLOORS_BPS b.kind)

def effPackagingB (b : EconBase) : ℤ := b.packagingCents.getD 0

/-- The record `evaluateEcon` produces on an accepted price. -/
def resultOf (b : EconBase) (p : ℤ) : EconResult :=
  let fees := mulBps p (effPctB b) + effFixedB b
  let buffer := mulBps p (effBufferB b)
  let profit := p - (b.cogsCents + b.shippingCents + effPackagingB b + fees + buffer)
  let margin := jsRound (profit * 10000) p
  { priceCents := p, feesCents := fees, bufferCents := buffer,
    cogsCents := b.cogsCents, shippingCents := b.shippingCents,
    packagingCents := effPackagingB b, profitCents := profit, marginBps := margin,
    pass := decide (effFloorB b ≤ margin), floorBps := effFloorB b,
    breakdown := { feeLabel := (PLATFORM_FEES b.platform).label,
                   platformPctBps := effPctB b, fixedFeeCents := effFixedB b } }

lemma evaluateEcon_withPrice (b : EconBase) (p : ℤ) (hp : 0 < p) :
    evaluateEcon (withPrice b p) = some (resultOf b p) := by
  simp only [evaluateEcon, withPrice, computeFeesCents, resultOf,
    effPctB, effFixedB, effBufferB, effFloorB, effPackagingB]
  rw [if_neg (by omega)]

lemma evaluateEcon_eq_none_iff (i : EconInputs) :
    evaluateEcon i = none ↔ i.priceCents ≤ 0 := by
  by_cases h : i.priceCents ≤ 0 <;> simp [evaluateEcon, h]

/- ### Division facts used throughout -/

lemma mul_ediv_self_le {a b : ℤ} (hb : 0 < b) : b * (a / b) ≤ a := by
  have h1 := Int.ediv_add_emod a b
  have h2 := Int.emod_nonneg a (ne_of_gt hb)
  omega

lemma le_ediv_of_mul_le {a b c : ℤ} (hb : 0 < b) (h : c * b ≤ a) : c ≤ a / b :=
  (Int.le_ediv_iff_mul_le hb).mpr h

lemma le_mul_jsCeilDiv {a b : ℤ} (hb : 0 < b) : a ≤ b * jsCeilDiv a b := by
  have h := mul_ediv_self_le (a := -a) hb
  have h2 : b * jsCeilDiv a b = -(b * ((-a) / b)) := by
    simp only [jsCeilDiv]; ring
  omega

lemma jsRound_le {n d : ℤ} (hd : 0 < d) : 2 * d * jsRound n d ≤ 2 * n + d :=
  mul_ediv_self_le (by omega)

lemma le_jsRound {n d c : ℤ} (hd : 0 < d) (h : c * (2 * d) ≤ 2 * n + d) :
    c ≤ jsRound n d :=
  le_ediv_of_mul_le (by omega) h

/- ### C9: the worked example of the spec -/

/-- The example inputs from the spec and source comment. -/
def ex9 : EconInputs :=
  { priceCents := 1490, cogsCents := 500, shippingCents := 320,
    platform := Platform.etsy, kind := ProductKind.physical }

/-- Claim C9: `evaluateEcon({priceCents:1490, cogsCents:500, shippingCents:320,
platform:'etsy', kind:'physical'})` yields `feesCents = 145`
(= round(1490·975/10000) + 0), `floorBps = 3000`, and
`pass = (marginBps ≥ 3000)`. -/
theorem evaluateEcon_etsy_example :
    (evaluateEcon ex9).map EconResult.feesCents = some 145 ∧
    (evaluateEcon ex9).map EconResult.floorBps = some 3000 ∧
    (evaluateEcon ex9).map EconResult.pass =
      (evaluateEcon ex9).map (fun r => decide (3000 ≤ r.marginBps)) := by
  decide

/- ### C6: evaluateEcon rejects exactly the non-positive prices -/

/-- Claim C6: `evaluateEcon` throws if and only if `priceCents ≤ 0`; every
input with a positive price (any costs, buffers, floors) produces a result. -/
theorem evaluateEcon_throws_iff (i : EconInputs) :
    evaluateEcon i = none ↔ i.priceCents ≤ 0 :=
  evaluateEcon_eq_none_iff i

/- ### C5: closed form of the break-even price -/

/-- Claim C5: `minPriceForFloorCents` returns the infinite sentinel iff
`pctBps + bufferBps + floorBps ≥ 10000`, and otherwise
`ceil((cogs+shipping+packaging+fixed)·10000 / (10000 − pct − buffer − floor))`. -/
theorem minPriceForFloor_closed_form (b : EconBase) :
    minPriceForFloorCents b =
      if 10000 ≤ effPctB b + effBufferB b + effFloorB b then none
      else some (jsCeilDiv
        ((b.cogsCents + b.shippingCents + effPackagingB b + effFixedB b) * 10000)
        (10000 - effPctB b - effBufferB b - effFloorB b)) := by
  simp only [minPriceForFloorCents, effPctB, effBufferB, effFloorB, effFixedB, effPackagingB]
  by_cases h : (10000 : ℤ) ≤ b.overridePctBps.getD (PLATFORM_FEES b.platform).pctBps +
      b.bufferBps.getD DEFAULT_BUFFER_BPS + b.floorBps.getD (DEFAULT_FLOORS_BPS b.kind)
  · rw [if_pos (by omega), if_pos h]
  · rw [if_neg (by omega), if_neg h]

/- ### C1: the evaluator's arithmetic -/

/-- Claim C1: for every accepted input (`priceCents > 0`), the result satisfies
`feesCents = round(price·pct/10000) + fixed`, `bufferCents = round(price·buffer/10000)`,
`profit = price − (cogs + shipping + packaging + fees + buffer)`,
`marginBps = round(profit·10000/price)` and `pass = (marginBps ≥ floorBps)`. -/
theorem evaluateEcon_formula_spec (i : EconInputs) (h : 0 < i.priceCents) :
    ∃ r, evaluateEcon i = some r ∧
      r.feesCents = jsRound (i.priceCents * effPctB (baseOf i)) 10000 + effFixedB (baseOf i) ∧
      r.bufferCents = jsRound (i.priceCents * effBufferB (baseOf i)) 10000 ∧
      r.profitCents = i.priceCents - (i.cogsCents + i.shippingCents +
        i.packagingCents.getD 0 + r.feesCents + r.bufferCents) ∧
      r.marginBps = jsRound (r.profitCents * 10000) i.priceCents ∧
      (r.pass = true ↔ effFloorB (baseOf i) ≤ r.marginBps) := by
  refine ⟨resultOf (baseOf i) i.priceCents, ?_, rfl, rfl, rfl, rfl, ?_⟩
  · exact evaluateEcon_withPrice (baseOf i) i.priceCents h
  · simp [resultOf]

/-- Witness for C1 at the spec's own example. -/
theorem evaluateEcon_formula_spec_witness :
    (0 : ℤ) < ex9.priceCents ∧
    (∃ r, evaluateEcon ex9 = some r ∧
      r.feesCents = jsRound (ex9.priceCents * effPctB (baseOf ex9)) 10000 +
        effFixedB (baseOf ex9) ∧
      r.bufferCents = jsRound (ex9.priceCents * effBufferB (baseOf ex9)) 10000 ∧
      r.profitCents = ex9.priceCents - (ex9.cogsCents + ex9.shippingCents +
        ex9.packagingCents.getD 0 + r.feesCents + r.bufferCents) ∧
      r.marginBps = jsRound (r.profitCents * 10000) ex9.priceCents ∧
      (r.pass = true ↔ effFloorB (baseOf ex9) ≤ r.marginBps)) :=
  ⟨by decide, evaluateEcon_formula_spec ex9 (by decide)⟩

/- ### C2: feeding the break-even price back into the evaluator -/

/-- Price-less input on which the feedback property fails badly: 50% fee
override, 25%+25% of two cents rounds to a whole cent twice. -/
def c2base : EconBase :=
  { cogsCents := 1, shippingCents := 0, platform := Platform.other,
    kind := ProductKind.physical, overridePctBps := some 2500,
    overrideFixedCents := some 0, bufferBps := some 2500, floorBps := some 0 }

/-- Counterexample to C2 as stated: `minPriceForFloorCents` yields the finite
price 2, but evaluating at 2 gives `marginBps = −5000` against `floorBps = 0`,
i.e. `|marginBps − floorBps| = 5000 > 1`. -/
theorem minPrice_feedback_margin_cex :
    minPriceForFloorCents c2base = some 2 ∧
    (evaluateEcon (withPrice c2base 2)).map EconResult.marginBps = some (-5000) ∧
    (evaluateEcon (withPrice c2base 2)).map EconResult.floorBps = some 0 ∧
    ¬(|(-5000 : ℤ) - 0| ≤ 1) := by
  decide

/-- Amended C2: at the break-even price `p` the margin is bounded below by
`floorBps − ⌈(20000 − p)/(2p)⌉` — in particular `marginBps ≥ floorBps` once
`p ≥ 20000`; the original within-1-bps bound is false (the cent roundings of
fees, buffer and margin each contribute up to `10000/p` bps). -/
theorem minPrice_feedback_margin_bound (b : EconBase) (p : ℤ)
    (hmin : minPriceForFloorCents b = some p) (hp : 0 < p) :
    ∃ r, evaluateEcon (withPrice b p) = some r ∧
      effFloorB b - jsCeilDiv (20000 - p) (2 * p) ≤ r.marginBps := by
  refine ⟨resultOf b p, evaluateEcon_withPrice b p hp, ?_⟩
  have hmin' : (if 10000 - effPctB b - effBufferB b - effFloorB b ≤ 0 then (none : Option ℤ)
      else some (jsCeilDiv
        ((b.cogsCents + b.shippingCents + effPackagingB b + effFixedB b) * 10000)
        (10000 - effPctB b - effBufferB b - effFloorB b))) = some p := hmin
  by_cases hD : 10000 - effPctB b - effBufferB b - effFloorB b ≤ 0
  · rw [if_pos hD] at hmin'
    exact absurd hmin' (by simp)
  · rw [if_neg hD] at hmin'
    push_neg at hD
    have hp_eq : jsCeilDiv
        ((b.cogsCents + b.shippingCents + effPackagingB b + effFixedB b) * 10000)
        (10000 - effPctB b - effBufferB b - effFloorB b) = p :=
      Option.some_injective _ hmin'
    have hR : (b.cogsCents + b.shippingCents + effPackagingB b + effFixedB b) * 10000 ≤
        (10000 - effPctB b - effBufferB b - effFloorB b) * p := by
      have := le_mul_jsCeilDiv
        (a := (b.cogsCents + b.shippingCents + effPackagingB b + effFixedB b) * 10000) hD
      rwa [hp_eq] at this
    have hF : 2 * 10000 * mulBps p (effPctB b) ≤ 2 * (p * effPctB b) + 10000 :=
      jsRound_le (by norm_num)
    have hB : 2 * 10000 * mulBps p (effBufferB b) ≤ 2 * (p * effBufferB b) + 10000 :=
      jsRound_le (by norm_num)
    have hq : 20000 - p ≤ 2 * p * jsCeilDiv (20000 - p) (2 * p) :=
      le_mul_jsCeilDiv (by omega)
    show effFloorB b - jsCeilDiv (20000 - p) (2 * p) ≤
      jsRound ((p - (b.cogsCents + b.shippingCents + effPackagingB b +
        (mulBps p (effPctB b) + effFixedB b) + mulBps p (effBufferB b))) * 10000) p
    apply le_jsRound hp
    nlinarith [hF, hB, hR, hq]

/-- The spec's etsy example without a price, used as witness input for C2/C3. -/
def wbase : EconBase :=
  { cogsCents := 1000, shippingCents := 0, platform := Platform.etsy,
    kind := ProductKind.physical }

/-- Witness for the amended C2 at a concrete input (break-even price 1747). -/
theorem minPrice_feedback_margin_bound_witness :
    minPriceForFloorCents wbase = some 1747 ∧ (0 : ℤ) < 1747 ∧
    (∃ r, evaluateEcon (withPrice wbase 1747) = some r ∧
      effFloorB wbase - jsCeilDiv (20000 - 1747) (2 * 1747) ≤ r.marginBps) :=
  ⟨by decide, by decide, minPrice_feedback_margin_bound wbase 1747 (by decide) (by decide)⟩

/- ### C3: the price ladder -/

lemma ensureMin_some_ge {m : ℤ} (hm : m ≠ 0) (n : ℤ) : m ≤ ensureMin (some m) n := by
  simp only [ensureMin]
  split_ifs with h
  · exact le_refl m
  · omega

lemma roundToCharm_ge_min {m : ℤ} (hm : m ≠ 0) (p : ℤ) (c : Charm) :
    m ≤ roundToCharm p c (some m) := by
  simp only [roundToCharm]
  split_ifs <;> exact ensureMin_some_ge hm _

lemma mem_of_jsDedup {α : Type} [DecidableEq α] :
    ∀ (l : List α) (x : α), x ∈ jsDedup l → x ∈ l := by
  intro l
  induction l using jsDedup.induct with
  | case1 =>
    intro x h
    simp [jsDedup] at h
  | case2 a l ih =>
    intro x h
    rw [jsDedup] at h
    rcases List.mem_cons.mp h with rfl | h
    · exact List.mem_cons_self _ _
    · exact List.mem_cons_of_mem _ (List.mem_of_mem_filter (ih x h))

lemma jsDedup_nodup {α : Type} [DecidableEq α] : ∀ (l : List α), (jsDedup l).Nodup := by
  intro l
  induction l using jsDedup.induct with
  | case1 => simp [jsDedup]
  | case2 a l ih =>
    rw [jsDedup]
    refine List.nodup_cons.mpr ⟨?_, ih⟩
    intro hmem
    have h := List.of_mem_filter (mem_of_jsDedup _ _ hmem)
    simp at h

lemma ladderAux_spec (b : EconBase) (p0 : ℤ) (charm : Charm) (h1 : 1 ≤ p0)
    (steps : List ℚ) :
    ∀ i : ℕ, ∃ l, ladderAux b p0 charm i steps = some l ∧ ∀ x ∈ l, p0 ≤ x := by
  induction steps with
  | nil => exact fun i => ⟨[], rfl, by simp⟩
  | cons m rest ih =>
    intro i
    obtain ⟨l, hl, hml⟩ := ih (i + 1)
    have hcg : p0 ≤ roundToCharm (⌈(p0 : ℚ) * m⌉) charm (some p0) :=
      roundToCharm_ge_min (by omega) _ _
    have hfg : p0 ≤ roundToCharm (p0 + 1) charm (some p0) :=
      roundToCharm_ge_min (by omega) _ _
    have heval := evaluateEcon_withPrice b
      (roundToCharm (⌈(p0 : ℚ) * m⌉) charm (some p0)) (by omega)
    refine ⟨(if (resultOf b (roundToCharm (⌈(p0 : ℚ) * m⌉) charm (some p0))).pass = false ∧ i = 0
        then roundToCharm (p0 + 1) charm (some p0)
        else roundToCharm (⌈(p0 : ℚ) * m⌉) charm (some p0)) :: l, ?_, ?_⟩
    · rw [ladderAux, heval, hl]
    · intro x hx
      rcases List.mem_cons.mp hx with rfl | hx
      · split_ifs <;> assumption
      · exact hml x hx

/-- Price-less input for the ladder counterexample: at the break-even price 99
both percentage roundings land on an exact half cent and round up, pushing the
margin below the floor; with step list `[1, 1]` the unreverified second rung 99
is returned after the index-0 fallback 199. -/
def c3base : EconBase :=
  { cogsCents := 1, shippingCents := 0, platform := Platform.other,
    kind := ProductKind.physical, overridePctBps := some 4899,
    overrideFixedCents := some 0, bufferBps := some 4899, floorBps := some 100 }

/-- Counterexample to C3 as stated: the returned ladder `[199, 99]` is not
ascending, and its element 99 fails the floor
(`evaluateEcon` at 99 gives `pass = false`). -/
theorem priceLadder_cex :
    buildPriceLadderCents c3base [1, 1] Charm.c99 = some [199, 99] ∧
    (evaluateEcon (withPrice c3base 99)).map EconResult.pass = some false ∧
    ¬((199 : ℤ) < 99) := by
  have hceil : (⌈((99 : ℤ) : ℚ) * 1⌉ : ℤ) = 99 := by norm_num
  have hch99 : roundToCharm 99 Charm.c99 (some 99) = 99 := by decide
  have hch100 : roundToCharm 100 Charm.c99 (some 99) = 199 := by decide
  have heval : evaluateEcon (withPrice c3base 99) = some (resultOf c3base 99) :=
    evaluateEcon_withPrice c3base 99 (by decide)
  have hpass : (resultOf c3base 99).pass = false := by decide
  have haux1 : ladderAux c3base 99 Charm.c99 1 [1] = some [99] := by
    simp only [ladderAux, hceil, hch99, heval]
    simp [hpass]
  have haux0 : ladderAux c3base 99 Charm.c99 0 [1, 1] = some [199, 99] := by
    simp only [ladderAux, hceil, hch99, heval]
    simp [hpass, hch100]
  have hded : jsDedup [(199 : ℤ), 99] = [199, 99] := by
    simp [jsDedup]
  refine ⟨?_, ?_, by decide⟩
  · rw [buildPriceLadderCents,
      show minPriceForFloorCents c3base = some 99 from by decide]
    show (match ladderAux c3base 99 Charm.c99 0 [1, 1] with
      | none => none
      | some ladder => some (jsDedup ladder)) = some [199, 99]
    rw [haux0]
    show some (jsDedup [(199 : ℤ), 99]) = some [199, 99]
    rw [hded]
  · rw [heval]
    simp [hpass]

/-- Amended C3: given a finite positive break-even price `p0`, the ladder
call succeeds, contains no duplicates, and every returned price is at least
`p0`; the strict-ascent and floor-pass guarantees of the original claim are
false (see the counterexample). -/
theorem priceLadder_min_and_nodup (b : EconBase) (steps : List ℚ) (charm : Charm)
    (p0 : ℤ) (hmin : minPriceForFloorCents b = some p0) (h1 : 1 ≤ p0) :
    ∃ l, buildPriceLadderCents b steps charm = some l ∧ l.Nodup ∧ ∀ x ∈ l, p0 ≤ x := by
  obtain ⟨l, hl, hml⟩ := ladderAux_spec b p0 charm h1 steps 0
  refine ⟨jsDedup l, ?_, jsDedup_nodup l, fun x hx => hml x (mem_of_jsDedup _ _ hx)⟩
  rw [buildPriceLadderCents, hmin]
  show (match ladderAux b p0 charm 0 steps with
    | none => none
    | some ladder => some (jsDedup ladder)) = some (jsDedup l)
  rw [hl]

/-- Witness for the amended C3 at the etsy example with the default steps. -/
theorem priceLadder_min_and_nodup_witness :
    minPriceForFloorCents wbase = some 1747 ∧ (1 : ℤ) ≤ 1747 ∧
    (∃ l, buildPriceLadderCents wbase [1, 23/20, 13/10] Charm.c99 = some l ∧
      l.Nodup ∧ ∀ x ∈ l, (1747 : ℤ) ≤ x) :=
  ⟨by decide, by decide,
    priceLadder_min_and_nodup wbase [1, 23/20, 13/10] Charm.c99 1747 (by decide) (by decide)⟩

/- ### C4: charm rounding -/

lemma le_ensureMin (m : Option ℤ) (n : ℤ) : n ≤ ensureMin m n := by
  cases m with
  | none => exact le_refl n
  | some mc =>
    simp only [ensureMin]
    split_ifs with h
    · omega
    · exact le_refl n

lemma ensureMin_ge_min (n : ℤ) {mc : ℤ} (h : mc = 0 → mc ≤ n) :
    mc ≤ ensureMin (some mc) n := by
  simp only [ensureMin]
  split_ifs with hif
  · exact le_refl mc
  · by_cases hmc : mc = 0
    · exact le_trans (le_of_eq rfl) (h hmc)
    · omega

lemma ensureMin_eq_or (m : Option ℤ) (n : ℤ) :
    ensureMin m n = n ∨ ∃ mc, m = some mc ∧ ensureMin m n = mc := by
  cases m with
  | none => exact Or.inl rfl
  | some mc =>
    simp only [ensureMin]
    split_ifs with h
    · exact Or.inr ⟨mc, rfl, rfl⟩
    · exact Or.inl rfl

/-- Counterexample to C4 as stated: with `minCents = 200` supplied,
`roundToCharm 50 '.99'` returns 200, whose last two decimal digits are 00,
not the requested 99. -/
theorem roundToCharm_cex :
    roundToCharm 50 Charm.c99 (some 200) = 200 ∧ ¬((200 : ℤ) % 100 = 99) := by
  decide

/-- Amended C4: for `priceCents ≥ 0` and a real charm the result is `≥ price`,
`≥ minCents` when one is supplied, and either carries the requested two-digit
charm ending or is the supplied minimum verbatim (the `ensure` clamp can
override the ending, see the counterexample). -/
theorem roundToCharm_bounds (p : ℤ) (c : Charm) (m : Option ℤ)
    (hp : 0 ≤ p) (hc : ¬c = Charm.cnone) :
    p ≤ roundToCharm p c m ∧
    (∀ mc, m = some mc → mc ≤ roundToCharm p c m) ∧
    (roundToCharm p c m % 100 = charmEnding c ∨ m = some (roundToCharm p c m)) := by
  have hdecomp := Int.ediv_add_emod p 100
  have hm1 := Int.emod_nonneg p (show (100 : ℤ) ≠ 0 by norm_num)
  have hm2 := Int.emod_lt_of_pos p (show (0 : ℤ) < 100 by norm_num)
  have he : 90 ≤ charmEnding c ∧ charmEnding c ≤ 99 := by
    cases c
    · exact ⟨by decide, by decide⟩
    · exact ⟨by decide, by decide⟩
    · exact ⟨by decide, by decide⟩
    · exact absurd rfl hc
  have hd0 : 0 ≤ p / 100 := Int.ediv_nonneg hp (by norm_num)
  simp only [roundToCharm, if_neg hc]
  split_ifs with ht
  · refine ⟨le_trans ht (le_ensureMin m _), fun mc hmc => ?_, ?_⟩
    · subst hmc
      exact ensureMin_ge_min _ (by omega)
    · rcases ensureMin_eq_or m (p / 100 * 100 + charmEnding c) with h | ⟨mc, hmc, h⟩
      · left
        rw [h]
        omega
      · right
        rw [hmc] at h ⊢
        rw [h]
  · have hplt : p < (p / 100 + 1) * 100 + charmEnding c := by omega
    refine ⟨le_trans (le_of_lt hplt) (le_ensureMin m _), fun mc hmc => ?_, ?_⟩
    · subst hmc
      exact ensureMin_ge_min _ (by omega)
    · rcases ensureMin_eq_or m ((p / 100 + 1) * 100 + charmEnding c) with h | ⟨mc, hmc, h⟩
      · left
        rw [h]
        omega
      · right
        rw [hmc] at h ⊢
        rw [h]

/-- Witness for the amended C4 at the counterexample's own input. -/
theorem roundToCharm_bounds_witness :
    (0 : ℤ) ≤ 50 ∧ ¬Charm.c99 = Charm.cnone ∧
    ((50 : ℤ) ≤ roundToCharm 50 Charm.c99 (some 200) ∧
      (∀ mc, (some (200 : ℤ)) = some mc → mc ≤ roundToCharm 50 Charm.c99 (some 200)) ∧
      (roundToCharm 50 Charm.c99 (some 200) % 100 = charmEnding Charm.c99 ∨
        (some (200 : ℤ)) = some (roundToCharm 50 Charm.c99 (some 200)))) :=
  ⟨by decide, by decide, roundToCharm_bounds 50 Charm.c99 (some 200) (by decide) (by decide)⟩

/- ### The Money / pricing module -/

inductive CurrencyCode : Type
  | USD | AUD | NZD | CAD | EUR | GBP | JPY | SGD | HKD
deriving DecidableEq

/-- Decimal places per currency (0 for JPY, 2 for the rest). -/
def DECIMALS : CurrencyCode → ℕ
  | CurrencyCode.JPY => 0
  | _ => 2

structure Money where
  cents : ℤ
  currency : CurrencyCode
deriving DecidableEq

/-- `Math.round` of an exact rational (JS rounds halves toward +∞). -/
def jsRoundQZ (x : ℚ) : ℤ := ⌊x + 1 / 2⌋

/-- `Money.fromCents` on an integer model value: the `Number.isFinite` guard
and `Math.trunc` are no-ops on integers (the NaN path is modelled where it
arises, in `parse`). -/
def Money.fromCents (c : ℤ) (cur : CurrencyCode) : Money := ⟨c, cur⟩

/-- `add`: `assertSameCurrency` throws on mismatch. -/
def Money.add (a b : Money) : Option Money :=
  if a.currency = b.currency then some ⟨a.cents + b.cents, a.currency⟩ else none

/-- `sub`: `assertSameCurrency` throws on mismatch. -/
def Money.sub (a b : Money) : Option Money :=
  if a.currency = b.currency then some ⟨a.cents - b.cents, a.currency⟩ else none

/-- `mul`: `Math.round(Number(this.cents) * n)` with the scalar exact. -/
def Money.mul (a : Money) (n : ℚ) : Money :=
  ⟨jsRoundQZ ((a.cents : ℚ) * n), a.currency⟩

/-- `mulBps`: `Math.round(Number(this.cents) * (bps / 10000))`. -/
def Money.mulBps (a : Money) (bps : ℤ) : Money :=
  ⟨jsRoundQZ ((a.cents : ℚ) * ((bps : ℚ) / 10000)), a.currency⟩

/-- The `replace(/[^\d.]/g, '')` strip of `Money.parse`. -/
def stripNonNumeric (s : List Char) : List Char :=
  s.filter (fun ch => ch.isDigit ∨ ch = '.')

def digitsToNat (s : List Char) : ℕ :=
  s.foldl (fun a ch => 10 * a + (ch.toNat - 48)) 0

/-- `parseInt(s, 10)` on a string of digits and dots: `none` is NaN
(no leading digit), otherwise the value of the maximal digit prefix. -/
def jsParseInt (s : List Char) : Option ℕ :=
  match s with
  | [] => none
  | ch :: _ => if ch.isDigit then some (digitsToNat (s.takeWhile Char.isDigit)) else none

/-- Body of `Money.parse` after the character strip. A NaN `parseInt`
propagates to `fromCents`, whose `isFinite` guard throws (`none`). -/
def parseStripped (s : List Char) (currency : CurrencyCode) : Option Money :=
  if s = [] then some ⟨0, currency⟩
  else if DECIMALS currency = 0 then
    match jsParseInt s with
    | none => none
    | some n => some ⟨(n : ℤ), currency⟩
  else
    let d := DECIMALS currency
    let intPart := s.takeWhile (fun ch => ch ≠ '.')
    let fracRaw := ((s.dropWhile (fun ch => ch ≠ '.')).drop 1).takeWhile (fun ch => ch ≠ '.')
    let frac := (fracRaw ++ ['0', '0']).take d
    match jsParseInt intPart, jsParseInt (if frac = [] then ['0'] else frac) with
    | some iv, some fv => some ⟨((iv * 10 ^ d + fv : ℕ) : ℤ), currency⟩
    | _, _ => none

/-- `Money.parse`. -/
def Money.parse (str : List Char) (currency : CurrencyCode) : Option Money :=
  parseStripped (stripNonNumeric str) currency

/- ### C7: currency safety of Money arithmetic -/

/-- Claim C7: `add`/`sub` throw exactly on mismatched currencies, otherwise
add/subtract cents and keep the receiver's currency; `mul`/`mulBps` always
keep the receiver's currency. -/
theorem money_arith_currency (a b : Money) :
    (Money.add a b = none ↔ ¬a.currency = b.currency) ∧
    (∀ r, Money.add a b = some r → r.currency = a.currency ∧ r.cents = a.cents + b.cents) ∧
    (Money.sub a b = none ↔ ¬a.currency = b.currency) ∧
    (∀ r, Money.sub a b = some r → r.currency = a.currency ∧ r.cents = a.cents - b.cents) ∧
    (∀ n : ℚ, (Money.mul a n).currency = a.currency) ∧
    (∀ k : ℤ, (Money.mulBps a k).currency = a.currency) := by
  refine ⟨?_, ?_, ?_, ?_, fun n => rfl, fun k => rfl⟩
  · unfold Money.add
    split_ifs with h <;> simp [h]
  · intro r hr
    unfold Money.add at hr
    split_ifs at hr with h
    · obtain rfl := Option.some.inj hr
      exact ⟨rfl, rfl⟩
  · unfold Money.sub
    split_ifs with h <;> simp [h]
  · intro r hr
    unfold Money.sub at hr
    split_ifs at hr with h
    · obtain rfl := Option.some.inj hr
      exact ⟨rfl, rfl⟩

/-- Witness for C7 at concrete USD/EUR values. -/
theorem money_arith_currency_witness :
    Money.add (Money.mk 3 CurrencyCode.USD) (Money.mk 4 CurrencyCode.EUR) = none ∧
    ((Money.mk 7 CurrencyCode.USD).currency = (Money.mk 3 CurrencyCode.USD).currency ∧
      (Money.mk 7 CurrencyCode.USD).cents =
        (Money.mk 3 CurrencyCode.USD).cents + (Money.mk 4 CurrencyCode.USD).cents) ∧
    (Money.mul (Money.mk 3 CurrencyCode.USD) (1 / 2)).currency = CurrencyCode.USD := by
  refine ⟨?_, ?_, ?_⟩
  · exact (money_arith_currency (Money.mk 3 CurrencyCode.USD)
      (Money.mk 4 CurrencyCode.EUR)).1.mpr (by decide)
  · exact (money_arith_currency (Money.mk 3 CurrencyCode.USD)
      (Money.mk 4 CurrencyCode.USD)).2.1 (Money.mk 7 CurrencyCode.USD) (by decide)
  · exact (money_arith_currency (Money.mk 3 CurrencyCode.USD)
      (Money.mk 3 CurrencyCode.USD)).2.2.2.2.1 (1 / 2)

/- ### C10: Money.parse -/

lemma parseStripped_nonneg (t : List Char) (c : CurrencyCode) (m : Money)
    (h : parseStripped t c = some m) : 0 ≤ m.cents := by
  simp only [parseStripped] at h
  split_ifs at h
  · obtain rfl := Option.some.inj h
    exact le_refl 0
  all_goals
    split at h <;>
      first
        | (obtain rfl := Option.some.inj h; exact Int.natCast_nonneg _)
        | exact absurd h (by simp)

/-- Counterexample to C10 as stated: on the input `"."` the stripped string is
nonempty with an empty integer part, `parseInt('')` is NaN, and
`Money.fromCents` throws — `parse` does not return any amount at all. -/
theorem money_parse_cex : Money.parse ['.'] CurrencyCode.USD = none := by
  decide

/-- Amended C10: whenever `Money.parse` returns, the cents are non-negative;
a leading minus sign is stripped, so a negative-signed string parses exactly
like its absolute value; an empty or all-symbol string parses to zero cents.
(The original "for every input string" fails: `parse` throws when the stripped
string is nonempty and starts with `'.'`, see the counterexample.) -/
theorem money_parse_props (s : List Char) (c : CurrencyCode) :
    (∀ m, Money.parse s c = some m → 0 ≤ m.cents) ∧
    Money.parse ('-' :: s) c = Money.parse s c ∧
    (stripNonNumeric s = [] → Money.parse s c = some (Money.mk 0 c)) := by
  refine ⟨fun m h => parseStripped_nonneg _ _ _ h, ?_, fun h => ?_⟩
  · have hstrip : stripNonNumeric ('-' :: s) = stripNonNumeric s := by
      unfold stripNonNumeric
      rw [List.filter_cons, if_neg (by decide)]
    unfold Money.parse
    rw [hstrip]
  · unfold Money.parse
    rw [h]
    rfl

/-- Witness for the amended C10 on `"-12.99"` / `"12.99"` / `" "`. -/
theorem money_parse_props_witness :
    (0 : ℤ) ≤ (Money.mk 1299 CurrencyCode.USD).cents ∧
    Money.parse ['-', '1', '2', '.', '9', '9'] CurrencyCode.USD =
      Money.parse ['1', '2', '.', '9', '9'] CurrencyCode.USD ∧
    Money.parse [' '] CurrencyCode.USD = some (Money.mk 0 CurrencyCode.USD) := by
  refine ⟨?_, ?_, ?_⟩
  · exact (money_parse_props ['1', '2', '.', '9', '9'] CurrencyCode.USD).1
      (Money.mk 1299 CurrencyCode.USD) (by decide)
  · exact (money_parse_props ['1', '2', '.', '9', '9'] CurrencyCode.USD).2.1
  · exact (money_parse_props [' '] CurrencyCode.USD).2.2 (by decide)

/- ### C8: exact-rational mirror of the evaluator module.
The `R` functions recompute each operation over `ℚ` exactly as the JS number
pipeline does (real arithmetic, `Math.round`/`floor`/`ceil` at the places the
source rounds); the agreement theorem shows every cent/bps output equals the
integer computed by the `ℤ` embedding — i.e. all outputs are integers. -/

def jsRoundR (x : ℚ) : ℚ := ((⌊x + 1 / 2⌋ : ℤ) : ℚ)

def jsFloorR (x : ℚ) : ℚ := ((⌊x⌋ : ℤ) : ℚ)

def jsCeilR (x : ℚ) : ℚ := ((⌈x⌉ : ℤ) : ℚ)

def mulBpsR (amountCents rateBps : ℚ) : ℚ := jsRoundR (amountCents * rateBps / 10000)

structure EconResultR where
  feesCents : ℚ
  bufferCents : ℚ
  profitCents : ℚ
  marginBps : ℚ
  pass : Bool
deriving DecidableEq

/-- Cent/bps fields of an integer result, as rationals. -/
def econResultR_ofInt (r : EconResult) : EconResultR :=
  ⟨(r.feesCents : ℚ), (r.bufferCents : ℚ), (r.profitCents : ℚ), (r.marginBps : ℚ), r.pass⟩

def evaluateEconR (b : EconBase) (price : ℚ) : Option EconResultR :=
  if price ≤ 0 then none
  else
    let fees := mulBpsR price ((effPctB b : ℤ) : ℚ) + ((effFixedB b : ℤ) : ℚ)
    let buffer := mulBpsR price ((effBufferB b : ℤ) : ℚ)
    let profit := price - ((b.cogsCents : ℚ) + (b.shippingCents : ℚ) +
      ((effPackagingB b : ℤ) : ℚ) + fees + buffer)
    let margin := jsRoundR (profit * 10000 / price)
    some ⟨fees, buffer, profit, margin, decide (((effFloorB b : ℤ) : ℚ) ≤ margin)⟩

def minPriceForFloorCentsR (b : EconBase) : Option ℚ :=
  let denom : ℚ := 10000 - ((effPctB b : ℤ) : ℚ) - ((effBufferB b : ℤ) : ℚ) -
    ((effFloorB b : ℤ) : ℚ)
  if denom ≤ 0 then none
  else some (jsCeilR
    (((b.cogsCents + b.shippingCents + effPackagingB b + effFixedB b : ℤ) : ℚ) * 10000 / denom))

/-- The `/ 1` and the final `Math.floor` of the source made explicit. -/
def maxCogsForFloorCentsR (i : EconInputs) : ℚ :=
  jsFloorR (mulBpsR ((i.priceCents : ℤ) : ℚ)
      ((10000 - effPctB (baseOf i) - effBufferB (baseOf i) - effFloorB (baseOf i) : ℤ) : ℚ) / 1 -
    ((i.shippingCents : ℚ) + ((effPackagingB (baseOf i) : ℤ) : ℚ) +
      ((effFixedB (baseOf i) : ℤ) : ℚ)))

def ensureMinR (minCents : Option ℚ) (n : ℚ) : ℚ :=
  match minCents with
  | none => n
  | some m => if m ≠ 0 ∧ n < m then m else n

def roundToCharmR (priceCents : ℚ) (charm : Charm) (minCents : Option ℚ) : ℚ :=
  if charm = Charm.cnone then ensureMinR minCents priceCents
  else
    let dollars := jsFloorR (priceCents / 100)
    let target := dollars * 100 + ((charmEnding charm : ℤ) : ℚ)
    if priceCents ≤ target then ensureMinR minCents target
    else ensureMinR minCents ((dollars + 1) * 100 + ((charmEnding charm : ℤ) : ℚ))

def ladderAuxR (b : EconBase) (p0 : ℚ) (charm : Charm) : ℕ → List ℚ → Option (List ℚ)
  | _, [] => some []
  | i, m :: rest =>
    let raw := jsCeilR (p0 * m)
    let charmed := roundToCharmR raw charm (some p0)
    match evaluateEconR b charmed with
    | none => none
    | some evalRes =>
      let rung := if evalRes.pass = false ∧ i = 0
        then roundToCharmR (p0 + 1) charm (some p0) else charmed
      match ladderAuxR b p0 charm (i + 1) rest with
      | none => none
      | some rest' => some (rung :: rest')

/- Cast bridges between the `ℚ` mirror and the `ℤ` embedding. -/

lemma floorIntDiv (a b : ℤ) (hb : 0 < b) : ⌊(a : ℚ) / (b : ℚ)⌋ = a / b := by
  have hbt : ((b.toNat : ℕ) : ℤ) = b := Int.toNat_of_nonneg hb.le
  have h1 : ((b.toNat : ℕ) : ℚ) = (b : ℚ) := by exact_mod_cast hbt
  rw [← h1, Rat.floor_intCast_div_natCast a b.toNat, hbt]

lemma jsRoundR_intCast (n d : ℤ) (hd : 0 < d) :
    jsRoundR ((n : ℚ) / (d : ℚ)) = ((jsRound n d : ℤ) : ℚ) := by
  have hd0 : (d : ℚ) ≠ 0 := Int.cast_ne_zero.mpr (ne_of_gt hd)
  have heq : (n : ℚ) / (d : ℚ) + 1 / 2 = ((2 * n + d : ℤ) : ℚ) / ((2 * d : ℤ) : ℚ) := by
    push_cast
    field_simp
    ring
  simp only [jsRoundR, jsRound]
  rw [heq, floorIntDiv _ _ (by omega)]

lemma jsCeilR_intCast (n d : ℤ) (hd : 0 < d) :
    jsCeilR ((n : ℚ) / (d : ℚ)) = ((jsCeilDiv n d : ℤ) : ℚ) := by
  have hceil : (⌈(n : ℚ) / (d : ℚ)⌉ : ℤ) = -⌊-((n : ℚ) / (d : ℚ))⌋ := by
    rw [← Int.ceil_neg, neg_neg]
  have hneg : -((n : ℚ) / (d : ℚ)) = ((-n : ℤ) : ℚ) / ((d : ℤ) : ℚ) := by
    push_cast
    ring
  simp only [jsCeilR, jsCeilDiv]
  rw [hceil, hneg, floorIntDiv _ _ hd]

lemma mulBpsR_intCast (a r : ℤ) :
    mulBpsR ((a : ℤ) : ℚ) ((r : ℤ) : ℚ) = ((mulBps a r : ℤ) : ℚ) := by
  have h : ((a : ℤ) : ℚ) * ((r : ℤ) : ℚ) / 10000 = ((a * r : ℤ) : ℚ) / ((10000 : ℤ) : ℚ) := by
    push_cast
    ring
  simp only [mulBpsR, mulBps]
  rw [h, jsRoundR_intCast _ _ (by norm_num)]

lemma jsRoundR_cast_div (x : ℚ) (a b : ℤ) (hb : 0 < b) (hx : x = (a : ℚ)) :
    jsRoundR (x * 10000 / (b : ℚ)) = ((jsRound (a * 10000) b : ℤ) : ℚ) := by
  subst hx
  rw [show ((a : ℚ) * 10000 / (b : ℚ)) = (((a * 10000 : ℤ)) : ℚ) / ((b : ℤ) : ℚ) by
    push_cast; ring]
  exact jsRoundR_intCast _ _ hb

lemma evaluateEconR_agree (b : EconBase) (p : ℤ) :
    evaluateEconR b (p : ℚ) = (evaluateEcon (withPrice b p)).map econResultR_ofInt := by
  by_cases hp : p ≤ 0
  · have h1 : (p : ℚ) ≤ 0 := by exact_mod_cast hp
    rw [(evaluateEcon_eq_none_iff (withPrice b p)).mpr hp]
    simp [evaluateEconR, h1]
  · push_neg at hp
    have h1 : ¬((p : ℚ) ≤ 0) := by
      push_neg
      exact_mod_cast hp
    rw [evaluateEcon_withPrice b p hp]
    simp only [evaluateEconR, if_neg h1, econResultR_ofInt, resultOf, Option.map_some',
      Option.some.injEq, EconResultR.mk.injEq]
    refine ⟨?_, ?_, ?_, ?_, ?_⟩
    · rw [mulBpsR_intCast]
      push_cast
      ring
    · exact mulBpsR_intCast p (effBufferB b)
    · rw [mulBpsR_intCast, mulBpsR_intCast]
      push_cast
      ring
    · rw [mulBpsR_intCast, mulBpsR_intCast,
        jsRoundR_cast_div _
          (p - (b.cogsCents + b.shippingCents + effPackagingB b +
            (mulBps p (effPctB b) + effFixedB b) + mulBps p (effBufferB b))) p hp
          (by push_cast; ring)]
    · rw [mulBpsR_intCast, mulBpsR_intCast,
        jsRoundR_cast_div _
          (p - (b.cogsCents + b.shippingCents + effPackagingB b +
            (mulBps p (effPctB b) + effFixedB b) + mulBps p (effBufferB b))) p hp
          (by push_cast; ring), decide_eq_decide]
      exact Int.cast_le

lemma ensureMinR_agree (m : Option ℤ) (n : ℤ) :
    ensureMinR (m.map (fun x : ℤ => (x : ℚ))) ((n : ℤ) : ℚ) = ((ensureMin m n : ℤ) : ℚ) := by
  cases m with
  | none => rfl
  | some mc =>
    simp only [ensureMinR, ensureMin, Option.map_some']
    have hiff : (((mc : ℤ) : ℚ) ≠ 0 ∧ ((n : ℤ) : ℚ) < ((mc : ℤ) : ℚ)) ↔ (mc ≠ 0 ∧ n < mc) := by
      constructor
      · rintro ⟨a, hlt⟩
        exact ⟨by exact_mod_cast a, by exact_mod_cast hlt⟩
      · rintro ⟨a, hlt⟩
        exact ⟨by exact_mod_cast a, by exact_mod_cast hlt⟩
    rw [if_congr hiff rfl rfl, apply_ite (fun x : ℤ => (x : ℚ))]

lemma roundToCharmR_agree (p : ℤ) (c : Charm) (m : Option ℤ) :
    roundToCharmR ((p : ℤ) : ℚ) c (m.map (fun x : ℤ => (x : ℚ))) =
      ((roundToCharm p c m : ℤ) : ℚ) := by
  simp only [roundToCharmR, roundToCharm]
  have hd : jsFloorR (((p : ℤ) : ℚ) / 100) = ((p / 100 : ℤ) : ℚ) := by
    simp only [jsFloorR]
    rw [show ((100 : ℚ)) = ((100 : ℤ) : ℚ) by norm_num, floorIntDiv p 100 (by norm_num)]
  by_cases hc : c = Charm.cnone
  · rw [if_pos hc, if_pos hc]
    exact ensureMinR_agree m p
  · rw [if_neg hc, if_neg hc, hd]
    have htar : ((p / 100 : ℤ) : ℚ) * 100 + ((charmEnding c : ℤ) : ℚ) =
        ((p / 100 * 100 + charmEnding c : ℤ) : ℚ) := by
      push_cast
      ring
    rw [htar]
    by_cases ht : p ≤ p / 100 * 100 + charmEnding c
    · rw [if_pos (show ((p : ℤ) : ℚ) ≤ ((p / 100 * 100 + charmEnding c : ℤ) : ℚ) by
        exact_mod_cast ht), if_pos ht]
      exact ensureMinR_agree m _
    · rw [if_neg (show ¬((p : ℤ) : ℚ) ≤ ((p / 100 * 100 + charmEnding c : ℤ) : ℚ) from
        fun hh => ht (by exact_mod_cast hh)), if_neg ht]
      have hb2 : (((p / 100 : ℤ) : ℚ) + 1) * 100 + ((charmEnding c : ℤ) : ℚ) =
          (((p / 100 + 1) * 100 + charmEnding c : ℤ) : ℚ) := by
        push_cast
        ring
      rw [hb2]
      exact ensureMinR_agree m _

lemma minPriceR_agree (b : EconBase) :
    minPriceForFloorCentsR b = (minPriceForFloorCents b).map (fun x : ℤ => (x : ℚ)) := by
  simp only [minPriceForFloorCentsR, minPriceForFloorCents,
    effPctB, effBufferB, effFloorB, effFixedB, effPackagingB]
  by_cases h : 10000 - b.overridePctBps.getD (PLATFORM_FEES b.platform).pctBps -
      b.bufferBps.getD DEFAULT_BUFFER_BPS - b.floorBps.getD (DEFAULT_FLOORS_BPS b.kind) ≤ 0
  · rw [if_pos h, if_pos (by exact_mod_cast h)]
    rfl
  · rw [if_neg h, if_neg (show ¬(10000 : ℚ) -
        ((b.overridePctBps.getD (PLATFORM_FEES b.platform).pctBps : ℤ) : ℚ) -
        ((b.bufferBps.getD DEFAULT_BUFFER_BPS : ℤ) : ℚ) -
        ((b.floorBps.getD (DEFAULT_FLOORS_BPS b.kind) : ℤ) : ℚ) ≤ 0 from
      fun hh => h (by exact_mod_cast hh))]
    rw [Option.map_some']
    congr 1
    rw [show ((b.cogsCents + b.shippingCents + b.packagingCents.getD 0 +
        b.overrideFixedCents.getD (PLATFORM_FEES b.platform).fixedCents : ℤ) : ℚ) * 10000 /
        ((10000 : ℚ) - ((b.overridePctBps.getD (PLATFORM_FEES b.platform).pctBps : ℤ) : ℚ) -
          ((b.bufferBps.getD DEFAULT_BUFFER_BPS : ℤ) : ℚ) -
          ((b.floorBps.getD (DEFAULT_FLOORS_BPS b.kind) : ℤ) : ℚ)) =
      (((b.cogsCents + b.shippingCents + b.packagingCents.getD 0 +
        b.overrideFixedCents.getD (PLATFORM_FEES b.platform).fixedCents) * 10000 : ℤ) : ℚ) /
      ((10000 - b.overridePctBps.getD (PLATFORM_FEES b.platform).pctBps -
        b.bufferBps.getD DEFAULT_BUFFER_BPS -
        b.floorBps.getD (DEFAULT_FLOORS_BPS b.kind) : ℤ) : ℚ) by push_cast; ring]
    exact jsCeilR_intCast _ _ (by omega)

lemma maxCogsR_agree (i : EconInputs) :
    maxCogsForFloorCentsR i = ((maxCogsForFloorCents i : ℤ) : ℚ) := by
  simp only [maxCogsForFloorCentsR, maxCogsForFloorCents,
    effPctB, effBufferB, effFloorB, effFixedB, effPackagingB, baseOf]
  rw [mulBpsR_intCast]
  rw [show ((mulBps i.priceCents (10000 - i.overridePctBps.getD (PLATFORM_FEES i.platform).pctBps -
      i.bufferBps.getD DEFAULT_BUFFER_BPS - i.floorBps.getD (DEFAULT_FLOORS_BPS i.kind)) : ℤ) : ℚ) / 1 -
      ((i.shippingCents : ℚ) + ((i.packagingCents.getD 0 : ℤ) : ℚ) +
        ((i.overrideFixedCents.getD (PLATFORM_FEES i.platform).fixedCents : ℤ) : ℚ)) =
    ((mulBps i.priceCents (10000 - i.overridePctBps.getD (PLATFORM_FEES i.platform).pctBps -
      i.bufferBps.getD DEFAULT_BUFFER_BPS - i.floorBps.getD (DEFAULT_FLOORS_BPS i.kind)) -
      (i.shippingCents + i.packagingCents.getD 0 +
        i.overrideFixedCents.getD (PLATFORM_FEES i.platform).fixedCents) : ℤ) : ℚ) by
    push_cast; ring]
  simp only [jsFloorR, Int.floor_intCast]

lemma jsDedup_map_intCast : ∀ l : List ℤ,
    jsDedup (l.map (fun x : ℤ => (x : ℚ))) = (jsDedup l).map (fun x : ℤ => (x : ℚ)) := by
  intro l
  induction l using jsDedup.induct with
  | case1 => simp [jsDedup]
  | case2 a l ih =>
    rw [List.map_cons, jsDedup, jsDedup, List.map_cons]
    congr 1
    rw [List.filter_map]
    have hfun : ((fun x : ℚ => x ≠ (a : ℚ)) ∘ (fun x : ℤ => (x : ℚ))) =
        (fun x : ℤ => x ≠ a) := by
      funext x
      simp [Function.comp, Int.cast_inj]
    rw [show (fun x : ℚ => decide (x ≠ (a : ℚ))) ∘ (fun x : ℤ => (x : ℚ)) =
        (fun x : ℤ => decide (x ≠ a)) by
      funext x
      simp [Function.comp, Int.cast_inj]]
    exact ih

lemma ladderAuxR_agree (b : EconBase) (p0 : ℤ) (charm : Charm) (steps : List ℚ) :
    ∀ i : ℕ, ladderAuxR b ((p0 : ℤ) : ℚ) charm i steps =
      (ladderAux b p0 charm i steps).map (List.map (fun x : ℤ => (x : ℚ))) := by
  induction steps with
  | nil => intro i; rfl
  | cons m rest ih =>
    intro i
    simp only [ladderAuxR, ladderAux]
    have hch : roundToCharmR (jsCeilR (((p0 : ℤ) : ℚ) * m)) charm (some ((p0 : ℤ) : ℚ)) =
        ((roundToCharm ⌈((p0 : ℤ) : ℚ) * m⌉ charm (some p0) : ℤ) : ℚ) :=
      roundToCharmR_agree ⌈((p0 : ℤ) : ℚ) * m⌉ charm (some p0)
    have hfall : roundToCharmR (((p0 : ℤ) : ℚ) + 1) charm (some ((p0 : ℤ) : ℚ)) =
        ((roundToCharm (p0 + 1) charm (some p0) : ℤ) : ℚ) := by
      rw [show ((p0 : ℤ) : ℚ) + 1 = ((p0 + 1 : ℤ) : ℚ) by push_cast; ring]
      exact roundToCharmR_agree (p0 + 1) charm (some p0)
    rw [hch, evaluateEconR_agree b (roundToCharm ⌈((p0 : ℤ) : ℚ) * m⌉ charm (some p0))]
    cases hev : evaluateEcon (withPrice b (roundToCharm ⌈((p0 : ℤ) : ℚ) * m⌉ charm (some p0))) with
    | none => rfl
    | some r =>
      simp only [Option.map_some', econResultR_ofInt, ih (i + 1)]
      cases hl : ladderAux b p0 charm (i + 1) rest with
      | none => rfl
      | some rest' =>
        simp only [Option.map_some', List.map_cons]
        split_ifs with hcond
        · rw [hfall]
        · rfl

/- ### The full JS-number model of the ladder pipeline.
On integer inputs the only JS doubles the ladder can produce besides exact
finite values are the infinities and NaN (the break-even price is
`Number.POSITIVE_INFINITY` when the denominator is non-positive, and the
source keeps computing with it). `Js` functions below follow the source
through both branches; float rounding of large finite values stays outside
the model, as everywhere else in this development. -/

inductive JsNum : Type
  | num : ℚ → JsNum
  | posInf : JsNum
  | negInf : JsNum
  | nan : JsNum
deriving DecidableEq

def jsNeg : JsNum → JsNum
  | JsNum.num a => JsNum.num (-a)
  | JsNum.posInf => JsNum.negInf
  | JsNum.negInf => JsNum.posInf
  | JsNum.nan => JsNum.nan

def jsAdd : JsNum → JsNum → JsNum
  | JsNum.num a, JsNum.num b => JsNum.num (a + b)
  | JsNum.num _, JsNum.posInf => JsNum.posInf
  | JsNum.num _, JsNum.negInf => JsNum.negInf
  | JsNum.posInf, JsNum.num _ => JsNum.posInf
  | JsNum.negInf, JsNum.num _ => JsNum.negInf
  | JsNum.posInf, JsNum.posInf => JsNum.posInf
  | JsNum.negInf, JsNum.negInf => JsNum.negInf
  | JsNum.posInf, JsNum.negInf => JsNum.nan
  | JsNum.negInf, JsNum.posInf => JsNum.nan
  | _, _ => JsNum.nan

/-- JS `a - b` is `a + (-b)`. -/
def jsSub (a b : JsNum) : JsNum := jsAdd a (jsNeg b)

def jsMul : JsNum → JsNum → JsNum
  | JsNum.num a, JsNum.num b => JsNum.num (a * b)
  | JsNum.num a, JsNum.posInf =>
    if 0 < a then JsNum.posInf else if a < 0 then JsNum.negInf else JsNum.nan
  | JsNum.num a, JsNum.negInf =>
    if 0 < a then JsNum.negInf else if a < 0 then JsNum.posInf else JsNum.nan
  | JsNum.posInf, JsNum.num b =>
    if 0 < b then JsNum.posInf else if b < 0 then JsNum.negInf else JsNum.nan
  | JsNum.negInf, JsNum.num b =>
    if 0 < b then JsNum.negInf else if b < 0 then JsNum.posInf else JsNum.nan
  | JsNum.posInf, JsNum.posInf => JsNum.posInf
  | JsNum.posInf, JsNum.negInf => JsNum.negInf
  | JsNum.negInf, JsNum.posInf => JsNum.negInf
  | JsNum.negInf, JsNum.negInf => JsNum.posInf
  | _, _ => JsNum.nan

/-- JS division (signed zeros are collapsed onto `num 0`; the pipeline only
compares, floors or rounds the quotients, which cannot tell `-0` from `0`). -/
def jsDiv : JsNum → JsNum → JsNum
  | JsNum.num a, JsNum.num b =>
    if b = 0 then (if 0 < a then JsNum.posInf else if a < 0 then JsNum.negInf else JsNum.nan)
    else JsNum.num (a / b)
  | JsNum.num _, JsNum.posInf => JsNum.num 0
  | JsNum.num _, JsNum.negInf => JsNum.num 0
  | JsNum.posInf, JsNum.num b => if 0 ≤ b then JsNum.posInf else JsNum.negInf
  | JsNum.negInf, JsNum.num b => if 0 ≤ b then JsNum.negInf else JsNum.posInf
  | _, _ => JsNum.nan

/-- `Math.floor`: identity on the infinities and on NaN. -/
def jsFloorN : JsNum → JsNum
  | JsNum.num a => JsNum.num (jsFloorR a)
  | x => x

/-- `Math.ceil`: identity on the infinities and on NaN. -/
def jsCeilN : JsNum → JsNum
  | JsNum.num a => JsNum.num (jsCeilR a)
  | x => x

/-- `Math.round`: identity on the infinities and on NaN. -/
def jsRoundN : JsNum → JsNum
  | JsNum.num a => JsNum.num (jsRoundR a)
  | x => x

/-- JS `<=`: any comparison against NaN is false. -/
def jsLeB : JsNum → JsNum → Bool
  | JsNum.num a, JsNum.num b => decide (a ≤ b)
  | JsNum.nan, _ => false
  | _, JsNum.nan => false
  | JsNum.negInf, _ => true
  | _, JsNum.posInf => true
  | JsNum.posInf, _ => false
  | JsNum.num _, JsNum.negInf => false

/-- JS `<`: any comparison against NaN is false. -/
def jsLtB : JsNum → JsNum → Bool
  | JsNum.num a, JsNum.num b => decide (a < b)
  | JsNum.nan, _ => false
  | _, JsNum.nan => false
  | JsNum.posInf, _ => false
  | JsNum.negInf, JsNum.negInf => false
  | JsNum.negInf, _ => true
  | JsNum.num _, JsNum.posInf => true
  | JsNum.num _, JsNum.negInf => false

/-- JS truthiness of a number: falsy exactly for `0` and NaN. -/
def jsTruthy : JsNum → Bool
  | JsNum.num a => decide (a ≠ 0)
  | JsNum.nan => false
  | _ => true

/-- `mulBps` over JS numbers. -/
def mulBpsJS (amountCents rateBps : JsNum) : JsNum :=
  jsRoundN (jsDiv (jsMul amountCents rateBps) (JsNum.num 10000))

structure JsEconResult where
  feesCents : JsNum
  bufferCents : JsNum
  profitCents : JsNum
  marginBps : JsNum
  pass : Bool
deriving DecidableEq

/-- `evaluateEcon` over a JS-number price: `Infinity <= 0` and `NaN <= 0` are
false, so the guard does NOT throw on the infinite price; the margin becomes
NaN and `pass` is false. -/
def evaluateEconJS (b : EconBase) (price : JsNum) : Option JsEconResult :=
  if jsLeB price (JsNum.num 0) then none
  else
    let fees := jsAdd (mulBpsJS price (JsNum.num ((effPctB b : ℤ) : ℚ)))
      (JsNum.num ((effFixedB b : ℤ) : ℚ))
    let buffer := mulBpsJS price (JsNum.num ((effBufferB b : ℤ) : ℚ))
    let profit := jsSub price (jsAdd (jsAdd (jsAdd (jsAdd
      (JsNum.num (b.cogsCents : ℚ)) (JsNum.num (b.shippingCents : ℚ)))
      (JsNum.num ((effPackagingB b : ℤ) : ℚ))) fees) buffer)
    let margin := jsRoundN (jsDiv (jsMul profit (JsNum.num 10000)) price)
    some ⟨fees, buffer, profit, margin, jsLeB (JsNum.num ((effFloorB b : ℤ) : ℚ)) margin⟩

/-- The `ensure` closure over JS numbers (`Infinity` is truthy, NaN is falsy). -/
def ensureMinJS (minCents : Option JsNum) (n : JsNum) : JsNum :=
  match minCents with
  | none => n
  | some m => if jsTruthy m && jsLtB n m then m else n

/-- `roundToCharm` over JS numbers. -/
def roundToCharmJS (priceCents : JsNum) (charm : Charm) (minCents : Option JsNum) : JsNum :=
  if charm = Charm.cnone then ensureMinJS minCents priceCents
  else
    let dollars := jsFloorN (jsDiv priceCents (JsNum.num 100))
    let target := jsAdd (jsMul dollars (JsNum.num 100)) (JsNum.num ((charmEnding charm : ℤ) : ℚ))
    if jsLeB priceCents target then ensureMinJS minCents target
    else ensureMinJS minCents
      (jsAdd (jsMul (jsAdd dollars (JsNum.num 1)) (JsNum.num 100))
        (JsNum.num ((charmEnding charm : ℤ) : ℚ)))

/-- `minPriceForFloorCents` as the source computes it: `Infinity`, not an
error, when the denominator is non-positive. -/
def minPriceForFloorCentsJS (b : EconBase) : JsNum :=
  if 10000 - effPctB b - effBufferB b - effFloorB b ≤ 0 then JsNum.posInf
  else JsNum.num (jsCeilR
    (((b.cogsCents + b.shippingCents + effPackagingB b + effFixedB b : ℤ) : ℚ) * 10000 /
      ((10000 - effPctB b - effBufferB b - effFloorB b : ℤ) : ℚ)))

def ladderAuxJS (b : EconBase) (p0 : JsNum) (charm : Charm) : ℕ → List ℚ → Option (List JsNum)
  | _, [] => some []
  | i, m :: rest =>
    let raw := jsCeilN (jsMul p0 (JsNum.num m))
    let charmed := roundToCharmJS raw charm (some p0)
    match evaluateEconJS b charmed with
    | none => none
    | some evalRes =>
      let rung := if evalRes.pass = false ∧ i = 0
        then roundToCharmJS (jsAdd p0 (JsNum.num 1)) charm (some p0) else charmed
      match ladderAuxJS b p0 charm (i + 1) rest with
      | none => none
      | some rest' => some (rung :: rest')

/-- `buildPriceLadderCents` following the source on both break-even branches. -/
def buildPriceLadderCentsJS (b : EconBase) (steps : List ℚ) (charm : Charm) :
    Option (List JsNum) :=
  match ladderAuxJS b (minPriceForFloorCentsJS b) charm 0 steps with
  | none => none
  | some ladder => some (jsDedup ladder)

/- Agreement of the JS-number pipeline with the `ℚ` mirror on finite values. -/

lemma jsLeB_num (a b : ℚ) : jsLeB (JsNum.num a) (JsNum.num b) = decide (a ≤ b) := rfl

lemma mulBpsJS_num (a r : ℚ) :
    mulBpsJS (JsNum.num a) (JsNum.num r) = JsNum.num (mulBpsR a r) := by
  simp only [mulBpsJS, jsMul, jsDiv]
  rw [if_neg (by norm_num : ¬(10000 : ℚ) = 0)]
  simp only [jsRoundN, mulBpsR]

lemma evaluateEconJS_num (b : EconBase) (x : ℚ) :
    evaluateEconJS b (JsNum.num x) = (evaluateEconR b x).map
      (fun r => ⟨JsNum.num r.feesCents, JsNum.num r.bufferCents,
        JsNum.num r.profitCents, JsNum.num r.marginBps, r.pass⟩) := by
  by_cases hx : x ≤ 0
  · have h1 : jsLeB (JsNum.num x) (JsNum.num 0) = true := by
      rw [jsLeB_num]
      exact decide_eq_true hx
    simp [evaluateEconJS, evaluateEconR, h1, hx]
  · have h1 : jsLeB (JsNum.num x) (JsNum.num 0) = false := by
      rw [jsLeB_num]
      exact decide_eq_false hx
    have hx0 : ¬(x = 0) := fun h => hx (le_of_eq h)
    simp only [evaluateEconJS, evaluateEconR, h1, Bool.false_eq_true, if_false, if_neg hx,
      Option.map_some', Option.some.injEq, JsEconResult.mk.injEq]
    refine ⟨?_, ?_, ?_, ?_, ?_⟩
    · rw [mulBpsJS_num]
      simp only [jsAdd]
    · exact mulBpsJS_num x _
    · rw [mulBpsJS_num, mulBpsJS_num]
      simp only [jsAdd, jsSub, jsNeg]
      rw [← sub_eq_add_neg]
    · rw [mulBpsJS_num, mulBpsJS_num]
      simp only [jsAdd, jsSub, jsNeg, jsMul, jsDiv]
      rw [if_neg hx0]
      simp only [jsRoundN]
      rw [← sub_eq_add_neg]
    · rw [mulBpsJS_num, mulBpsJS_num]
      simp only [jsAdd, jsSub, jsNeg, jsMul, jsDiv]
      rw [if_neg hx0]
      simp only [jsRoundN, jsLeB_num]
      rw [← sub_eq_add_neg]

lemma ensureMinJS_num (om : Option ℚ) (n : ℚ) :
    ensureMinJS (om.map JsNum.num) (JsNum.num n) = JsNum.num (ensureMinR om n) := by
  cases om with
  | none => rfl
  | some m =>
    simp only [ensureMinJS, ensureMinR, Option.map_some']
    have hb : ((jsTruthy (JsNum.num m) && jsLtB (JsNum.num n) (JsNum.num m)) = true) ↔
        (m ≠ 0 ∧ n < m) := by
      simp [jsTruthy, jsLtB]
    rw [if_congr hb rfl rfl, apply_ite JsNum.num]

lemma roundToCharmJS_num (x : ℚ) (c : Charm) (om : Option ℚ) :
    roundToCharmJS (JsNum.num x) c (om.map JsNum.num) = JsNum.num (roundToCharmR x c om) := by
  simp only [roundToCharmJS, roundToCharmR]
  by_cases hc : c = Charm.cnone
  · rw [if_pos hc, if_pos hc]
    exact ensureMinJS_num om x
  · rw [if_neg hc, if_neg hc]
    have hdol : jsFloorN (jsDiv (JsNum.num x) (JsNum.num 100)) =
        JsNum.num (jsFloorR (x / 100)) := by
      simp only [jsDiv]
      rw [if_neg (by norm_num : ¬(100 : ℚ) = 0)]
      rfl
    rw [hdol]
    have htar : jsAdd (jsMul (JsNum.num (jsFloorR (x / 100))) (JsNum.num 100))
        (JsNum.num ((charmEnding c : ℤ) : ℚ)) =
        JsNum.num (jsFloorR (x / 100) * 100 + ((charmEnding c : ℤ) : ℚ)) := rfl
    rw [htar]
    have hcond : (jsLeB (JsNum.num x)
        (JsNum.num (jsFloorR (x / 100) * 100 + ((charmEnding c : ℤ) : ℚ))) = true) ↔
        (x ≤ jsFloorR (x / 100) * 100 + ((charmEnding c : ℤ) : ℚ)) := by
      simp [jsLeB]
    by_cases ht : x ≤ jsFloorR (x / 100) * 100 + ((charmEnding c : ℤ) : ℚ)
    · rw [if_pos (hcond.mpr ht), if_pos ht]
      exact ensureMinJS_num om _
    · rw [if_neg (fun hh => ht (hcond.mp hh)), if_neg ht]
      have hbump : jsAdd (jsMul (jsAdd (JsNum.num (jsFloorR (x / 100))) (JsNum.num 1))
          (JsNum.num 100)) (JsNum.num ((charmEnding c : ℤ) : ℚ)) =
          JsNum.num ((jsFloorR (x / 100) + 1) * 100 + ((charmEnding c : ℤ) : ℚ)) := rfl
      rw [hbump]
      exact ensureMinJS_num om _

lemma minPriceJS_of_finite (b : EconBase) (p0 : ℤ)
    (hmin : minPriceForFloorCents b = some p0) :
    minPriceForFloorCentsJS b = JsNum.num ((p0 : ℤ) : ℚ) := by
  have hmin' : (if 10000 - effPctB b - effBufferB b - effFloorB b ≤ 0 then (none : Option ℤ)
      else some (jsCeilDiv
        ((b.cogsCents + b.shippingCents + effPackagingB b + effFixedB b) * 10000)
        (10000 - effPctB b - effBufferB b - effFloorB b))) = some p0 := hmin
  by_cases hD : 10000 - effPctB b - effBufferB b - effFloorB b ≤ 0
  · rw [if_pos hD] at hmin'
    exact absurd hmin' (by simp)
  · rw [if_neg hD] at hmin'
    push_neg at hD
    have hp_eq : jsCeilDiv
        ((b.cogsCents + b.shippingCents + effPackagingB b + effFixedB b) * 10000)
        (10000 - effPctB b - effBufferB b - effFloorB b) = p0 :=
      Option.some_injective _ hmin'
    rw [minPriceForFloorCentsJS, if_neg (by omega)]
    congr 1
    rw [show ((b.cogsCents + b.shippingCents + effPackagingB b + effFixedB b : ℤ) : ℚ) * 10000 /
        ((10000 - effPctB b - effBufferB b - effFloorB b : ℤ) : ℚ) =
      (((b.cogsCents + b.shippingCents + effPackagingB b + effFixedB b) * 10000 : ℤ) : ℚ) /
        ((10000 - effPctB b - effBufferB b - effFloorB b : ℤ) : ℚ) by push_cast; ring]
    rw [jsCeilR_intCast _ _ hD, hp_eq]

lemma jsDedup_map_num : ∀ l : List ℚ,
    jsDedup (l.map JsNum.num) = (jsDedup l).map JsNum.num := by
  intro l
  induction l using jsDedup.induct with
  | case1 => simp [jsDedup]
  | case2 a l ih =>
    rw [List.map_cons, jsDedup, jsDedup, List.map_cons]
    congr 1
    rw [List.filter_map]
    rw [show (fun x : JsNum => decide (x ≠ JsNum.num a)) ∘ JsNum.num =
        (fun x : ℚ => decide (x ≠ a)) by
      funext x
      simp [Function.comp]]
    exact ih

lemma ladderAuxJS_num (b : EconBase) (x : ℚ) (charm : Charm) (steps : List ℚ) :
    ∀ i : ℕ, ladderAuxJS b (JsNum.num x) charm i steps =
      (ladderAuxR b x charm i steps).map (List.map JsNum.num) := by
  induction steps with
  | nil => intro i; rfl
  | cons m rest ih =>
    intro i
    simp only [ladderAuxJS, ladderAuxR]
    have hraw : jsCeilN (jsMul (JsNum.num x) (JsNum.num m)) =
        JsNum.num (jsCeilR (x * m)) := rfl
    rw [hraw]
    have hch : roundToCharmJS (JsNum.num (jsCeilR (x * m))) charm (some (JsNum.num x)) =
        JsNum.num (roundToCharmR (jsCeilR (x * m)) charm (some x)) :=
      roundToCharmJS_num (jsCeilR (x * m)) charm (some x)
    rw [hch, evaluateEconJS_num b (roundToCharmR (jsCeilR (x * m)) charm (some x))]
    cases hev : evaluateEconR b (roundToCharmR (jsCeilR (x * m)) charm (some x)) with
    | none => rfl
    | some r =>
      simp only [Option.map_some', ih (i + 1)]
      cases hl : ladderAuxR b x charm (i + 1) rest with
      | none => rfl
      | some rest' =>
        simp only [Option.map_some', List.map_cons]
        have hfall : roundToCharmJS (jsAdd (JsNum.num x) (JsNum.num 1)) charm
            (some (JsNum.num x)) = JsNum.num (roundToCharmR (x + 1) charm (some x)) :=
          roundToCharmJS_num (x + 1) charm (some x)
        split_ifs with hcond
        · rw [hfall]
        · rfl

lemma ladderJS_finite (b : EconBase) (steps : List ℚ) (charm : Charm) (p0 : ℤ)
    (hmin : minPriceForFloorCents b = some p0) :
    buildPriceLadderCentsJS b steps charm =
      (buildPriceLadderCents b steps charm).map
        (List.map (fun x : ℤ => JsNum.num ((x : ℤ) : ℚ))) := by
  have hjs := minPriceJS_of_finite b p0 hmin
  simp only [buildPriceLadderCentsJS, buildPriceLadderCents, hjs, hmin,
    ladderAuxJS_num b ((p0 : ℤ) : ℚ) charm steps, ladderAuxR_agree b p0 charm steps]
  cases hl : ladderAux b p0 charm 0 steps with
  | none => rfl
  | some l =>
    simp only [Option.map_some']
    rw [jsDedup_map_num, jsDedup_map_intCast, List.map_map]
    rfl

/-- Integer input on which the break-even price is infinite: `floorBps =
10000` makes the denominator negative, `p0 = Infinity`, and the source's
ladder carries the infinity through to its output. -/
def c8base : EconBase :=
  { cogsCents := 500, shippingCents := 0, platform := Platform.etsy,
    kind := ProductKind.physical, floorBps := some 10000 }

/-- Counterexample to C8 as stated: on an ordinary integer input the source's
`buildPriceLadderCents` returns `[Infinity]` — a ladder element that is no
integer (nor any finite number). The evaluator at the infinite price does not
throw (`Infinity <= 0` is false); its margin is NaN, `pass` is false, and the
index-0 fallback re-charms `Infinity + 1 = Infinity`. -/
theorem integer_outputs_cex :
    buildPriceLadderCentsJS c8base [1] Charm.c99 = some [JsNum.posInf] ∧
    (∀ n : ℤ, JsNum.posInf ≠ JsNum.num ((n : ℤ) : ℚ)) := by
  constructor
  · have h1 : ladderAuxJS c8base (minPriceForFloorCentsJS c8base) Charm.c99 0 [1] =
        some [JsNum.posInf] := by decide
    rw [buildPriceLadderCentsJS, h1]
    show some (jsDedup [JsNum.posInf]) = some [JsNum.posInf]
    rw [show jsDedup [JsNum.posInf] = [JsNum.posInf] by simp [jsDedup]]
  · exact fun n h => JsNum.noConfusion h

/-- Amended C8: all cent/bps outputs of the evaluator module are integers,
except that the ladder's elements are only guaranteed integral when the
break-even price is finite (when `minPriceForFloorCents` hits its infinite
sentinel, the source returns `[Infinity]`, see the counterexample). Each `R`
function recomputes the source over exact rationals; `buildPriceLadderCentsJS`
follows the source through both break-even branches. Every listed output —
`evaluateEcon`'s fees, buffer, profit and margin, `roundToCharm`,
`maxCogsForFloorCents`, the finite branch of `minPriceForFloorCents`, and
each ladder element under a finite break-even — coincides with the integer
cast of the `ℤ` embedding's output. -/
theorem integer_outputs_agree :
    (∀ (b : EconBase) (p : ℤ),
      evaluateEconR b ((p : ℤ) : ℚ) = (evaluateEcon (withPrice b p)).map econResultR_ofInt) ∧
    (∀ (p : ℤ) (c : Charm) (m : Option ℤ),
      roundToCharmR ((p : ℤ) : ℚ) c (m.map (fun x : ℤ => (x : ℚ))) =
        ((roundToCharm p c m : ℤ) : ℚ)) ∧
    (∀ i : EconInputs, maxCogsForFloorCentsR i = ((maxCogsForFloorCents i : ℤ) : ℚ)) ∧
    (∀ b : EconBase,
      minPriceForFloorCentsR b = (minPriceForFloorCents b).map (fun x : ℤ => (x : ℚ))) ∧
    (∀ (b : EconBase) (steps : List ℚ) (c : Charm) (p0 : ℤ),
      minPriceForFloorCents b = some p0 →
        buildPriceLadderCentsJS b steps c =
          (buildPriceLadderCents b steps c).map
            (List.map (fun x : ℤ => JsNum.num ((x : ℤ) : ℚ)))) :=
  ⟨evaluateEconR_agree, roundToCharmR_agree, maxCogsR_agree, minPriceR_agree,
    fun b steps c p0 hmin => ladderJS_finite b steps c p0 hmin⟩

/-- Witness for the amended C8's ladder conjunct at the etsy example. -/
theorem integer_outputs_agree_witness :
    minPriceForFloorCents wbase = some 1747 ∧
    buildPriceLadderCentsJS wbase [1] Charm.c99 =
      (buildPriceLadderCents wbase [1] Charm.c99).map
        (List.map (fun x : ℤ => JsNum.num ((x : ℤ) : ℚ))) :=
  ⟨by decide, integer_outputs_agree.2.2.2.2 wbase [1] Charm.c99 1747 (by decide)⟩
